import Mathlib

/-!
Shallow embedding of the `word_counter` repository (files `counter/utils.py`
and `counter/views.py`).

Text is modelled as `List Char`.  The embedding fixes the ASCII fragment of
Python's string semantics: the regex class `\s` is the ASCII whitespace set,
`\w` is the ASCII word-character set, and `str.lower` / `str.upper` act on
the ASCII letters.  `re.sub` / `re.split` are modelled by explicit scanners
that reproduce the engine's leftmost, first-alternative, greedy matching,
with anchors evaluated against the original string, as Python does.
-/

theorem wcTakeDropLength (p : Char → Bool) :
    ∀ l : List Char, (l.takeWhile p).length + (l.dropWhile p).length = l.length := by
  intro l
  induction l with
  | nil => rfl
  | cons c cs ih =>
    by_cases h : p c
    · simp only [List.takeWhile_cons, List.dropWhile_cons, h, if_true, List.length_cons]
      omega
    · simp [List.takeWhile_cons, List.dropWhile_cons, h]

theorem wcDropWhileLengthLe (p : Char → Bool) (l : List Char) :
    (l.dropWhile p).length ≤ l.length := by
  have := wcTakeDropLength p l
  omega

theorem wcTakeWhileLengthLe (p : Char → Bool) (l : List Char) :
    (l.takeWhile p).length ≤ l.length := by
  have := wcTakeDropLength p l
  omega

theorem wcTakeWhileLtOfMem (p : Char → Bool) :
    ∀ l : List Char, ∀ x ∈ l, p x = false → (l.takeWhile p).length < l.length := by
  intro l
  induction l with
  | nil => intro x hx; simp at hx
  | cons c cs ih =>
    intro x hx hpx
    by_cases h : p c
    · simp only [List.takeWhile_cons, h, if_true, List.length_cons]
      have hxcs : x ∈ cs := by
        rcases List.mem_cons.mp hx with rfl | h2
        · rw [h] at hpx; exact absurd hpx (by simp)
        · exact h2
      exact Nat.succ_lt_succ (ih x hxcs hpx)
    · simp only [List.takeWhile_cons, h, if_false, List.length_cons, List.length_nil]
      exact Nat.succ_pos _

theorem wcTakeWhileAppendOfFail (p : Char → Bool) (x : Char)
    (hpx : p x = false) :
    ∀ A B : List Char, x ∈ A → (A ++ B).takeWhile p = A.takeWhile p := by
  intro A
  induction A with
  | nil => intro B hx; simp at hx
  | cons a A ih =>
    intro B hx
    by_cases h : p a
    · have hxA : x ∈ A := by
        rcases List.mem_cons.mp hx with rfl | h2
        · rw [h] at hpx; exact absurd hpx (by simp)
        · exact h2
      simp only [List.cons_append, List.takeWhile_cons, h, if_true, ih B hxA]
    · simp [List.takeWhile_cons, h]

theorem wcTakeDropAppend (p : Char → Bool) :
    ∀ l : List Char, l.takeWhile p ++ l.dropWhile p = l := by
  intro l
  induction l with
  | nil => rfl
  | cons c cs ih =>
    by_cases h : p c <;>
      simp [List.takeWhile_cons, List.dropWhile_cons, h, ih]

/-- Python's `\s` and `str.strip` whitespace class (ASCII fragment):
space, tab, newline, carriage return, vertical tab, form feed. -/
def pyWs (c : Char) : Bool :=
  c = ' ' || c = '\t' || c = '\n' || c = '\r' || c = '\x0b' || c = '\x0c'

/-- The characters matched by `[ \t]` in `TextCleaner.remove_extra_spaces`. -/
def isSpaceTab (c : Char) : Bool :=
  c = ' ' || c = '\t'

/-- Python `str.strip`: drop the leading and the trailing whitespace run. -/
def pyStrip (l : List Char) : List Char :=
  ((l.dropWhile pyWs).reverse.dropWhile pyWs).reverse

/-- Python's `\w` (ASCII fragment): letters, digits and underscore. -/
def isWordChar (c : Char) : Bool :=
  c.isAlpha || c.isDigit || c = '_'

/-- `str.lower` on one character (ASCII fragment): code points 65-90 are
shifted up by 32. -/
def pyLowerChar (c : Char) : Char :=
  if 65 ≤ c.toNat ∧ c.toNat ≤ 90 then Char.ofNat (c.toNat + 32) else c

/-- `str.upper` on one character (ASCII fragment): code points 97-122 are
shifted down by 32. -/
def pyUpperChar (c : Char) : Char :=
  if 97 ≤ c.toNat ∧ c.toNat ≤ 122 then Char.ofNat (c.toNat - 32) else c

/-- `re.findall(r'\b\w+\b', text)`: the maximal runs of word characters. -/
def wordRuns : List Char → List (List Char)
  | [] => []
  | c :: cs =>
    if isWordChar c then
      (c :: cs.takeWhile isWordChar) :: wordRuns (cs.dropWhile isWordChar)
    else
      wordRuns cs
termination_by l => l.length
decreasing_by
  all_goals simp only [List.length_cons]
  · exact Nat.lt_succ_of_le (wcDropWhileLengthLe isWordChar cs)
  · exact Nat.lt_succ_self _

/-- `TextAnalyzer.words`: word runs of the lowercased text
(`re.findall(r'\b\w+\b', self.text.lower())`). -/
def TextAnalyzer.words (text : List Char) : List (List Char) :=
  wordRuns (text.map pyLowerChar)

/-- The characters matched by `[.!?]` in `TextAnalyzer.sentences`. -/
def isSentEnd (c : Char) : Bool :=
  c = '.' || c = '!' || c = '?'

/-- `re.split` on the pattern `[p]+`: the segments between maximal runs of
`p`-characters, with empty segments retained exactly as Python keeps them. -/
def splitRuns (p : Char → Bool) : List Char → List (List Char)
  | [] => [[]]
  | c :: cs =>
    if p c then
      [] :: splitRuns p (cs.dropWhile p)
    else
      let r := splitRuns p cs
      (c :: r.headD []) :: r.tail
termination_by l => l.length
decreasing_by
  all_goals simp only [List.length_cons]
  · exact Nat.lt_succ_of_le (wcDropWhileLengthLe p cs)
  · exact Nat.lt_succ_self _

/-- `TextAnalyzer.sentences`: split on `[.!?]+`, strip each part, and keep
the nonempty results. -/
def TextAnalyzer.sentences (text : List Char) : List (List Char) :=
  ((splitRuns isSentEnd text).map pyStrip).filter (fun s => !s.isEmpty)

/-- The suffix of `l` strictly after its last newline (`l` itself when `l`
has no newline). -/
def afterLastNl (l : List Char) : List Char :=
  (l.reverse.takeWhile (fun c => c != '\n')).reverse

/-- `re.split(r'\n\s*\n', text)`: a separator match starts at a newline whose
maximal whitespace run contains a second newline, and the greedy match runs
through the last newline of that run. -/
def paraSplit : List Char → List (List Char)
  | [] => [[]]
  | c :: cs =>
    if c = '\n' ∧ 2 ≤ (c :: cs.takeWhile pyWs).count '\n' then
      [] :: paraSplit (afterLastNl (c :: cs.takeWhile pyWs) ++ cs.dropWhile pyWs)
    else
      let r := paraSplit cs
      (c :: r.headD []) :: r.tail
termination_by l => l.length
decreasing_by
  all_goals simp only [List.length_cons]
  · rename_i h
    have h1 : (afterLastNl (c :: cs.takeWhile pyWs)).length ≤ (cs.takeWhile pyWs).length := by
      have hmem : '\n' ∈ (c :: cs.takeWhile pyWs).reverse := by
        simp [h.1]
      have := wcTakeWhileLtOfMem (fun c => c != '\n') ((c :: cs.takeWhile pyWs).reverse)
        '\n' hmem (by simp)
      simp only [afterLastNl, List.length_reverse, List.length_cons] at this ⊢
      omega
    have h2 := wcTakeDropLength pyWs cs
    simp only [List.length_append]
    omega
  · exact Nat.lt_succ_self _

/-- `TextAnalyzer.paragraphs`: strip the text, split on `\n\s*\n`, strip each
part, keep the nonempty results. -/
def TextAnalyzer.paragraphs (text : List Char) : List (List Char) :=
  ((paraSplit (pyStrip text)).map pyStrip).filter (fun s => !s.isEmpty)

/-- `TextAnalyzer.STOPWORDS`, enumerated exactly as the source's set literal
(the duplicated entries of the literal are harmless for membership). -/
def TextAnalyzer.STOPWORDS : List (List Char) :=
  ["a".data, "an".data, "and".data, "are".data, "as".data, "at".data,
   "be".data, "by".data, "for".data, "from".data, "has".data, "he".data,
   "in".data, "is".data, "it".data, "its".data, "of".data, "on".data,
   "that".data, "the".data, "to".data, "was".data, "were".data, "will".data,
   "with".data, "the".data, "this".data, "but".data, "they".data,
   "have".data, "had".data, "what".data, "said".data, "each".data,
   "which".data, "she".data, "do".data, "how".data, "their".data, "if".data,
   "up".data, "out".data, "many".data, "then".data, "them".data,
   "these".data, "so".data, "some".data, "her".data, "would".data,
   "make".data, "like".data, "into".data, "him".data, "time".data,
   "two".data, "more".data, "go".data, "no".data, "way".data, "could".data,
   "my".data, "than".data, "first".data, "been".data, "call".data,
   "who".data, "its".data, "now".data, "find".data, "long".data,
   "down".data, "day".data, "did".data, "get".data, "come".data,
   "made".data, "may".data, "part".data]

/-- Python `round` on an exact rational: round half to even. -/
def pyRound (q : ℚ) : ℤ :=
  if q - ⌊q⌋ < 1/2 then ⌊q⌋
  else if 1/2 < q - ⌊q⌋ then ⌊q⌋ + 1
  else if Even ⌊q⌋ then ⌊q⌋ else ⌊q⌋ + 1

/-- Python `round(x, 2)` on an exact rational. -/
def round2 (q : ℚ) : ℚ :=
  (pyRound (q * 100) : ℚ) / 100

/-- One entry of the keyword-density list. -/
structure KeywordEntry where
  word : List Char
  count : ℕ
  density : ℚ
deriving DecidableEq

/-- The distinct elements of `l` in order of first occurrence — the iteration
order of a Python `Counter` built from `l`. -/
def firstUniques : List (List Char) → List (List Char)
  | [] => []
  | w :: ws => w :: firstUniques (ws.filter (fun v => v != w))
termination_by l => l.length
decreasing_by
  simp only [List.length_cons]
  exact Nat.lt_succ_of_le (ws.length_filter_le _)

/-- `Counter(l).most_common(...)` order: the distinct elements of `l` sorted
stably by descending count (`heapq.nlargest` breaks ties by iteration order,
i.e. by first occurrence). -/
def mostCommon (l : List (List Char)) : List (List Char) :=
  List.insertionSort (fun a b => l.count b ≤ l.count a) (firstUniques l)

/-- The `filtered_words` of `get_keyword_density`: words of length at
least 3 that are not stopwords. -/
def keywordFiltered (words : List (List Char)) : List (List Char) :=
  words.filter (fun w => decide (3 ≤ w.length) && !(TextAnalyzer.STOPWORDS.contains w))

/-- `TextAnalyzer.get_keyword_density`. -/
def TextAnalyzer.get_keyword_density (words : List (List Char)) : List KeywordEntry :=
  if words.isEmpty then []
  else
    if (keywordFiltered words).isEmpty then []
    else
      let total := (keywordFiltered words).length
      ((mostCommon (keywordFiltered words)).take 10).map (fun w =>
        { word := w
          count := (keywordFiltered words).count w
          density := round2 ((((keywordFiltered words).count w : ℚ) / (total : ℚ)) * 100) })

/-- A `{minutes, seconds}` pair as returned by the time calculators. -/
structure TimeParts where
  minutes : ℕ
  seconds : ℕ
deriving DecidableEq

/-- `TextAnalyzer.calculate_reading_time` (225 words per minute);
`math.ceil` of the exact quotient. -/
def TextAnalyzer.calculate_reading_time (word_count : ℕ) : TimeParts :=
  let minutes := (⌈(word_count : ℚ) / 225⌉).toNat
  { minutes := minutes
    seconds := if minutes = 0 then (⌈((word_count : ℚ) / 225) * 60⌉).toNat % 60 else 0 }

/-- `TextAnalyzer.calculate_speaking_time` (155 words per minute). -/
def TextAnalyzer.calculate_speaking_time (word_count : ℕ) : TimeParts :=
  let minutes := (⌈(word_count : ℚ) / 155⌉).toNat
  { minutes := minutes
    seconds := if minutes = 0 then (⌈((word_count : ℚ) / 155) * 60⌉).toNat % 60 else 0 }

/-- The dictionary returned by `TextAnalyzer.get_stats`. -/
structure Stats where
  word_count : ℕ
  character_count : ℕ
  character_count_no_spaces : ℕ
  sentence_count : ℕ
  paragraph_count : ℕ
  reading_time : TimeParts
  speaking_time : TimeParts
  keyword_density : List KeywordEntry
deriving DecidableEq

/-- The prefix of `l` strictly before its last newline. -/
def beforeLastNl (l : List Char) : List Char :=
  ((l.reverse.dropWhile (fun c => c != '\n')).tail).reverse

/-- `re.sub(r'[ \t]+', ' ', text)`: each maximal run of spaces/tabs becomes
one space (first substitution of `TextCleaner.remove_extra_spaces`). -/
def TextCleaner.sub1 : List Char → List Char
  | [] => []
  | c :: cs =>
    if isSpaceTab c then ' ' :: TextCleaner.sub1 (cs.dropWhile isSpaceTab)
    else c :: TextCleaner.sub1 cs
termination_by l => l.length
decreasing_by
  all_goals simp only [List.length_cons]
  · exact Nat.lt_succ_of_le (wcDropWhileLengthLe isSpaceTab cs)
  · exact Nat.lt_succ_self _

/-- `re.sub(r'\n\s*\n\s*\n+', '\n\n', text)` (second substitution): a match
starts at a newline whose maximal whitespace run holds at least three
newlines; the greedy match runs through the last newline of the run and is
replaced by two newlines. -/
def TextCleaner.sub2 : List Char → List Char
  | [] => []
  | c :: cs =>
    if c = '\n' ∧ 3 ≤ (c :: cs.takeWhile pyWs).count '\n' then
      '\n' :: '\n' ::
        TextCleaner.sub2 (afterLastNl (c :: cs.takeWhile pyWs) ++ cs.dropWhile pyWs)
    else c :: TextCleaner.sub2 cs
termination_by l => l.length
decreasing_by
  all_goals simp only [List.length_cons]
  · rename_i h
    have hmem : '\n' ∈ (c :: cs.takeWhile pyWs).reverse := by simp [h.1]
    have h1 := wcTakeWhileLtOfMem (fun c => c != '\n')
      ((c :: cs.takeWhile pyWs).reverse) '\n' hmem (by simp)
    have h2 := wcTakeDropLength pyWs cs
    simp only [afterLastNl, List.length_append, List.length_reverse,
      List.length_cons] at h1 ⊢
    omega
  · exact Nat.lt_succ_self _

/-- `re.sub(r'^\s+|\s+$', '', text, flags=re.MULTILINE)` (third
substitution), modelled as the engine's scan.  `atLS` records whether the
scan position is at a line start of the original string (position zero or
preceded by a newline), where `^` matches.  At a whitespace character the
engine first tries `^\s+` (deleting the maximal whitespace run), then
`\s+$` with the greedy backtracking choice of end: the end of the string if
the run reaches it, else just before the last newline of the run (scanning
resumes at that newline); otherwise there is no match and the character is
kept. -/
def TextCleaner.sub3 (atLS : Bool) : List Char → List Char
  | [] => []
  | c :: cs =>
    if pyWs c then
      if atLS then
        TextCleaner.sub3 ((c :: cs.takeWhile pyWs).getLastD ' ' == '\n') (cs.dropWhile pyWs)
      else if cs.dropWhile pyWs = [] then []
      else if '\n' ∈ cs.takeWhile pyWs then
        TextCleaner.sub3 ((beforeLastNl (c :: cs.takeWhile pyWs)).getLastD ' ' == '\n')
          ('\n' :: afterLastNl (c :: cs.takeWhile pyWs) ++ cs.dropWhile pyWs)
      else c :: TextCleaner.sub3 (c == '\n') cs
    else c :: TextCleaner.sub3 (c == '\n') cs
termination_by l => l.length
decreasing_by
  all_goals simp only [List.length_cons]
  · exact Nat.lt_succ_of_le (wcDropWhileLengthLe pyWs cs)
  · rename_i hnl
    have hrev : (c :: cs.takeWhile pyWs).reverse
        = (cs.takeWhile pyWs).reverse ++ [c] := by simp
    have hA : ((c :: cs.takeWhile pyWs).reverse.takeWhile (fun c => c != '\n'))
        = ((cs.takeWhile pyWs).reverse.takeWhile (fun c => c != '\n')) := by
      rw [hrev]
      exact wcTakeWhileAppendOfFail (fun c => c != '\n') '\n' (by simp)
        ((cs.takeWhile pyWs).reverse) [c] (by simp [hnl])
    have h1 := wcTakeWhileLtOfMem (fun c => c != '\n')
      ((cs.takeWhile pyWs).reverse) '\n' (by simp [hnl]) (by simp)
    have h2 := wcTakeDropLength pyWs cs
    simp only [afterLastNl, hA, List.length_cons, List.length_append,
      List.length_reverse] at h1 ⊢
    omega
  · exact Nat.lt_succ_self _
  · exact Nat.lt_succ_self _

/-- `TextCleaner.remove_extra_spaces`: the three substitutions in order,
then `str.strip` of the whole string. -/
def TextCleaner.remove_extra_spaces (text : List Char) : List Char :=
  pyStrip (TextCleaner.sub3 true (TextCleaner.sub2 (TextCleaner.sub1 text)))

/-- `CaseConverter.to_upper` (`str.upper`, ASCII fragment). -/
def CaseConverter.to_upper (text : List Char) : List Char :=
  text.map pyUpperChar

/-- `CaseConverter.to_lower` (`str.lower`, ASCII fragment). -/
def CaseConverter.to_lower (text : List Char) : List Char :=
  text.map pyLowerChar

/-- `TextAnalyzer.get_stats`. -/
def TextAnalyzer.get_stats (text : List Char) : Stats :=
  let ws := TextAnalyzer.words text
  { word_count := ws.length
    character_count := text.length
    character_count_no_spaces := (text.filter (fun c => c != ' ')).length
    sentence_count := (TextAnalyzer.sentences text).length
    paragraph_count := (TextAnalyzer.paragraphs text).length
    reading_time := TextAnalyzer.calculate_reading_time ws.length
    speaking_time := TextAnalyzer.calculate_speaking_time ws.length
    keyword_density := TextAnalyzer.get_keyword_density ws }

/-- A UTF-8 continuation byte. -/
def utf8Cont (b : ℕ) : Bool :=
  0x80 ≤ b && b ≤ 0xbf

/-- `bytes.decode('utf-8')`: the strict UTF-8 decoder (rejects truncated
sequences, stray continuation bytes, overlong encodings, surrogates and
code points above `0x10ffff`, as CPython does). -/
def utf8Decode : List ℕ → Option (List Char)
  | [] => some []
  | b :: bs =>
    if b ≤ 0x7f then
      (utf8Decode bs).map (fun t => Char.ofNat b :: t)
    else if 0xc2 ≤ b && b ≤ 0xdf then
      match bs with
      | b1 :: rest =>
        if utf8Cont b1 then
          (utf8Decode rest).map (fun t => Char.ofNat ((b - 0xc0) * 0x40 + (b1 - 0x80)) :: t)
        else none
      | [] => none
    else if 0xe0 ≤ b && b ≤ 0xef then
      match bs with
      | b1 :: b2 :: rest =>
        if (if b = 0xe0 then 0xa0 else 0x80) ≤ b1 &&
            b1 ≤ (if b = 0xed then 0x9f else 0xbf) && utf8Cont b2 then
          (utf8Decode rest).map (fun t =>
            Char.ofNat ((b - 0xe0) * 0x1000 + (b1 - 0x80) * 0x40 + (b2 - 0x80)) :: t)
        else none
      | _ => none
    else if 0xf0 ≤ b && b ≤ 0xf4 then
      match bs with
      | b1 :: b2 :: b3 :: rest =>
        if (if b = 0xf0 then 0x90 else 0x80) ≤ b1 &&
            b1 ≤ (if b = 0xf4 then 0x8f else 0xbf) && utf8Cont b2 && utf8Cont b3 then
          (utf8Decode rest).map (fun t =>
            Char.ofNat ((b - 0xf0) * 0x40000 + (b1 - 0x80) * 0x1000 +
              (b2 - 0x80) * 0x40 + (b3 - 0x80)) :: t)
        else none
      | _ => none
    else none

/-- `bytes.decode('latin-1')`: defined on every byte sequence, mapping byte
`b` to code point `b`. -/
def latin1Decode (bs : List ℕ) : Option (List Char) :=
  if bs.all (fun b => b < 256) then some (bs.map Char.ofNat) else none

/-- `FileProcessor.extract_text_from_txt`: decode as UTF-8, retry as
Latin-1 on failure, and raise `ValueError` only if that also fails. -/
def FileProcessor.extract_text_from_txt (bs : List ℕ) : Except String (List Char) :=
  match utf8Decode bs with
  | some t => Except.ok t
  | none =>
    match latin1Decode bs with
    | some t => Except.ok t
    | none => Except.error ("Error processing text file")

/-- `views.analyze_text_api`, modelled from the point where the `text`
field has been read from the request body: strip, reject empty and
oversized input, otherwise return `get_stats` of the stripped text. -/
def analyze_text_api (text : List Char) : Except String Stats :=
  let t := pyStrip text
  if t.isEmpty then Except.error ("No text provided")
  else if 50000 < t.length then Except.error ("Text too long (max 50,000 characters)")
  else Except.ok (TextAnalyzer.get_stats t)

/-- The JSON payload of a successful `process_file_api` response. -/
structure FileResult where
  text : List Char
  stats : Stats
  filename : List Char
deriving DecidableEq

/-- `file.name.lower().split('.')[-1]`. -/
def extOf (name : List Char) : List Char :=
  ((name.map pyLowerChar).splitOn '.').getLastD []

/-- `views.process_file_api`, modelled from the point where the upload's
name and size are known.  The byte-level docx/pdf/txt extraction adapters
are external parsers; the outcome of the extractor selected for the file is
passed in as `extracted` (`Except.error` for a raised `ValueError`). -/
def process_file_api (name : List Char) (size : ℕ)
    (extracted : Except String (List Char)) : Except String FileResult :=
  if 5 * 1024 * 1024 < size then Except.error ("File too large (max 5MB)")
  else if extOf name = "txt".data ∨ extOf name = "docx".data ∨ extOf name = "pdf".data then
    match extracted with
    | Except.error e => Except.error e
    | Except.ok text =>
      if (pyStrip text).isEmpty then Except.error ("No text found in file")
      else Except.ok
        { text := text.take 10000
          stats := TextAnalyzer.get_stats text
          filename := name }
  else Except.error ("Unsupported file type. Use TXT, DOCX, or PDF")

/-! ### Helper lemmas -/

theorem wcCharOfNatToNat (m : ℕ) (h : m < 55296) : (Char.ofNat m).toNat = m := by
  unfold Char.ofNat Char.toNat
  split
  · rfl
  · omega

theorem wcCharOfNatBack (c : Char) : Char.ofNat c.toNat = c := by
  apply Char.eq_of_val_eq
  unfold Char.ofNat
  split
  · apply UInt32.eq_of_toBitVec_eq
    simp only [Char.ofNatAux, Char.toNat, UInt32.toNat]
    apply BitVec.eq_of_toNat_eq
    simp
  · exfalso
    rename_i hbad
    exact hbad c.valid

theorem wcUpperLowerChar (c : Char) : pyUpperChar (pyLowerChar c) = pyUpperChar c := by
  unfold pyLowerChar pyUpperChar
  by_cases h : 65 ≤ c.toNat ∧ c.toNat ≤ 90
  · rw [if_pos h]
    have ht : (Char.ofNat (c.toNat + 32)).toNat = c.toNat + 32 :=
      wcCharOfNatToNat _ (by omega)
    rw [ht, if_pos (by omega), if_neg (by omega), Nat.add_sub_cancel, wcCharOfNatBack]
  · rw [if_neg h]

theorem wcCeilQ (n d : ℕ) (hd : 0 < d) :
    ⌈(n : ℚ) / (d : ℚ)⌉ = (((n + d - 1) / d : ℕ) : ℤ) := by
  have hdq : (0 : ℚ) < (d : ℚ) := by exact_mod_cast hd
  have hdm := Nat.div_add_mod (n + d - 1) d
  have hmlt : (n + d - 1) % d < d := Nat.mod_lt _ hd
  set k := (n + d - 1) / d with hk
  have h1 : n ≤ d * k := by omega
  have h2 : d * k < n + d := by omega
  have h1q : (n : ℚ) ≤ (d : ℚ) * (k : ℚ) := by exact_mod_cast h1
  have h2q : (d : ℚ) * (k : ℚ) < (n : ℚ) + (d : ℚ) := by exact_mod_cast h2
  have hcast : (((k : ℕ) : ℤ) : ℚ) = (k : ℚ) := by push_cast; ring
  rw [Int.ceil_eq_iff, hcast]
  constructor
  · rw [sub_lt_iff_lt_add, div_add' _ _ _ (ne_of_gt hdq), lt_div_iff₀ hdq]
    nlinarith [h2q]
  · rw [div_le_iff₀ hdq]
    nlinarith [h1q]

theorem wcMinutesNeZero (n d : ℕ) (hn : 0 < n) (hd : 0 < d) :
    (⌈(n : ℚ) / (d : ℚ)⌉).toNat ≠ 0 := by
  have hq : (0 : ℚ) < (n : ℚ) / (d : ℚ) :=
    div_pos (by exact_mod_cast hn) (by exact_mod_cast hd)
  have h := Int.ceil_pos.mpr hq
  omega

/-! ### Claims -/

/-- **C2**: for every word count `n`, reading time is
`minutes = ceil(n / 225)` with `seconds = ceil((n/225)*60) % 60` computed
only when `minutes == 0` and `0` otherwise; speaking time follows the same
formula at 155 wpm; and a 450-word input gives reading time
`{minutes := 2, seconds := 0}`.  The natural-number form of the ceilings is
proved as well. -/
theorem reading_and_speaking_time_formula (n : ℕ) :
    TextAnalyzer.calculate_reading_time n =
      { minutes := (⌈(n : ℚ) / 225⌉).toNat
        seconds := if (⌈(n : ℚ) / 225⌉).toNat = 0
          then (⌈(n : ℚ) / 225 * 60⌉).toNat % 60 else 0 } ∧
    TextAnalyzer.calculate_speaking_time n =
      { minutes := (⌈(n : ℚ) / 155⌉).toNat
        seconds := if (⌈(n : ℚ) / 155⌉).toNat = 0
          then (⌈(n : ℚ) / 155 * 60⌉).toNat % 60 else 0 } ∧
    (TextAnalyzer.calculate_reading_time n).minutes = (n + 224) / 225 ∧
    (TextAnalyzer.calculate_speaking_time n).minutes = (n + 154) / 155 ∧
    TextAnalyzer.calculate_reading_time 450 = { minutes := 2, seconds := 0 } := by
  refine ⟨rfl, rfl, ?_, ?_, ?_⟩
  · show (⌈(n : ℚ) / ((225 : ℕ) : ℚ)⌉).toNat = (n + 224) / 225
    rw [wcCeilQ n 225 (by norm_num)]
    omega
  · show (⌈(n : ℚ) / ((155 : ℕ) : ℚ)⌉).toNat = (n + 154) / 155
    rw [wcCeilQ n 155 (by norm_num)]
    omega
  · have h225 : ((225 : ℕ) : ℚ) = (225 : ℚ) := by norm_num
    have hm : (⌈((450 : ℕ) : ℚ) / (225 : ℚ)⌉).toNat = 2 := by
      rw [← h225, wcCeilQ 450 225 (by norm_num)]
      omega
    simp only [TextAnalyzer.calculate_reading_time]
    rw [hm]
    norm_num

/-- **C8**: for every word count, the `seconds` field of both reading time
and speaking time is `0`: with at least one word the minutes are positive
so the guard returns `0`, and with zero words the computed value is
`ceil(0) % 60 = 0`. -/
theorem seconds_always_zero (n : ℕ) :
    (TextAnalyzer.calculate_reading_time n).seconds = 0 ∧
    (TextAnalyzer.calculate_speaking_time n).seconds = 0 := by
  rcases Nat.eq_zero_or_pos n with rfl | hn
  · constructor <;>
      simp [TextAnalyzer.calculate_reading_time, TextAnalyzer.calculate_speaking_time]
  · constructor
    · show (if (⌈((n : ℕ) : ℚ) / ((225 : ℕ) : ℚ)⌉).toNat = 0 then _ else 0) = 0
      rw [if_neg (wcMinutesNeZero n 225 hn (by norm_num))]
    · show (if (⌈((n : ℕ) : ℚ) / ((155 : ℕ) : ℚ)⌉).toNat = 0 then _ else 0) = 0
      rw [if_neg (wcMinutesNeZero n 155 hn (by norm_num))]

/-- **C5**: case conversion round-trip,
`to_upper (to_lower s) = to_upper s` for every string. -/
theorem to_upper_to_lower_roundtrip (s : List Char) :
    CaseConverter.to_upper (CaseConverter.to_lower s) = CaseConverter.to_upper s := by
  unfold CaseConverter.to_upper CaseConverter.to_lower
  rw [List.map_map]
  exact List.map_congr_left (fun c _ => wcUpperLowerChar c)

/-- **C9**: plain-text extraction is total: every byte sequence decodes
(UTF-8 first, Latin-1 as fallback, and Latin-1 accepts every byte), so
`extract_text_from_txt` never reaches its error branch. -/
theorem extract_text_from_txt_total (bs : List ℕ) (h : ∀ b ∈ bs, b < 256) :
    ∃ t, FileProcessor.extract_text_from_txt bs = Except.ok t := by
  unfold FileProcessor.extract_text_from_txt
  cases hu : utf8Decode bs with
  | some t => exact ⟨t, rfl⟩
  | none =>
    have hl : latin1Decode bs = some (bs.map Char.ofNat) := by
      unfold latin1Decode
      rw [if_pos]
      simp only [List.all_eq_true, decide_eq_true_eq]
      exact h
    rw [hl]
    exact ⟨_, rfl⟩

/-- Witness for C9 at the byte `0xff`, which is not valid UTF-8. -/
theorem extract_text_from_txt_total_witness :
    (∀ b ∈ [255], b < 256) ∧
    ∃ t, FileProcessor.extract_text_from_txt [255] = Except.ok t :=
  ⟨by decide, extract_text_from_txt_total [255] (by decide)⟩

theorem wcReplSnoc (m : ℕ) :
    List.replicate m 'a' ++ ['a'] = List.replicate (m + 1) 'a' := by
  induction m with
  | zero => rfl
  | succ k ih =>
    rw [List.replicate_succ, List.cons_append, ih]
    rfl

theorem wcDropWhileRepl (n : ℕ) :
    List.dropWhile pyWs (List.replicate n 'a') = List.replicate n 'a' := by
  cases n with
  | zero => rfl
  | succ m =>
    have ha : pyWs 'a' = false := rfl
    rw [List.replicate_succ, List.dropWhile_cons, ha]
    simp

theorem wcStripRepl (n : ℕ) :
    pyStrip (List.replicate n 'a') = List.replicate n 'a' := by
  unfold pyStrip
  rw [wcDropWhileRepl, List.reverse_replicate, wcDropWhileRepl,
    List.reverse_replicate]

theorem wcStripReplSpace (n : ℕ) :
    pyStrip (List.replicate n 'a' ++ [' ']) = List.replicate n 'a' := by
  cases n with
  | zero => rfl
  | succ m =>
    have ha : pyWs 'a' = false := rfl
    have hs : pyWs ' ' = true := rfl
    unfold pyStrip
    rw [List.replicate_succ, List.cons_append, List.dropWhile_cons, ha]
    simp only [Bool.false_eq_true, if_false]
    rw [show ('a' :: (List.replicate m 'a' ++ [' '])).reverse
        = ' ' :: ((List.replicate m 'a').reverse ++ ['a']) from by
      simp]
    rw [List.dropWhile_cons, hs]
    simp only [if_true]
    rw [List.reverse_replicate, wcReplSnoc, wcDropWhileRepl, List.reverse_replicate,
      List.replicate_succ]

/-- **C10**: the analyze-text operation strips the input before both the
length check and the analysis; every accepted input is analyzed (including
`character_count`) over the stripped text rather than the raw submitted
string. -/
theorem analyze_text_uses_stripped (text : List Char) :
    ((∃ s, analyze_text_api text = Except.ok s) ↔
      (¬(pyStrip text).isEmpty ∧ (pyStrip text).length ≤ 50000)) ∧
    (∀ s, analyze_text_api text = Except.ok s →
      s = TextAnalyzer.get_stats (pyStrip text) ∧
      s.character_count = (pyStrip text).length) := by
  unfold analyze_text_api
  by_cases h1 : (pyStrip text).isEmpty
  · rw [if_pos h1]
    refine ⟨⟨fun ⟨s, hs⟩ => absurd hs (by simp), fun ⟨ha, _⟩ => absurd h1 ha⟩,
      fun s hs => absurd hs (by simp)⟩
  · rw [if_neg h1]
    by_cases h2 : 50000 < (pyStrip text).length
    · rw [if_pos h2]
      refine ⟨⟨fun ⟨s, hs⟩ => absurd hs (by simp), fun ⟨_, hb⟩ => absurd h2 (by omega)⟩,
        fun s hs => absurd hs (by simp)⟩
    · rw [if_neg h2]
      refine ⟨⟨fun _ => ⟨h1, by omega⟩, fun _ => ⟨_, rfl⟩⟩, fun s hs => ?_⟩
      have hss : TextAnalyzer.get_stats (pyStrip text) = s := by
        injection hs
      exact ⟨hss.symm, by rw [← hss]; rfl⟩

/-- Witness for C10 at the input `" hi "`. -/
theorem analyze_text_uses_stripped_witness :
    TextAnalyzer.get_stats ("hi".data) = TextAnalyzer.get_stats (pyStrip (" hi ".data)) ∧
    (TextAnalyzer.get_stats ("hi".data)).character_count = (pyStrip (" hi ".data)).length :=
  (analyze_text_uses_stripped (" hi ".data)).2 (TextAnalyzer.get_stats ("hi".data)) (by rfl)

theorem wcAnalyzeReplSpace (n : ℕ) (hn : 0 < n) (hle : n ≤ 50000) :
    analyze_text_api (List.replicate n 'a' ++ [' ']) =
      Except.ok (TextAnalyzer.get_stats (List.replicate n 'a')) := by
  unfold analyze_text_api
  rw [wcStripReplSpace]
  have h1 : ¬((List.replicate n 'a').isEmpty = true) := by
    cases n with
    | zero => exact absurd hn (by norm_num)
    | succ m => rw [List.replicate_succ]; simp [List.isEmpty]
  have h2 : ¬(50000 < (List.replicate n 'a').length) := by
    rw [List.length_replicate]
    omega
  rw [if_neg h1, if_neg h2]

/-- **C6** (counterexample): a 50,001-character input whose final character
is a space is accepted by `analyze_text_api`, because the length check is
applied only after stripping; so the claim that every input longer than
50,000 characters is rejected is false of the code. -/
theorem analyze_oversized_input_accepted :
    (List.replicate 50000 'a' ++ [' ']).length = 50001 ∧
    analyze_text_api (List.replicate 50000 'a' ++ [' ']) =
      Except.ok (TextAnalyzer.get_stats (List.replicate 50000 'a')) := by
  constructor
  · rw [List.length_append, List.length_replicate, List.length_singleton]
  · exact wcAnalyzeReplSpace 50000 (by norm_num) (by norm_num)

/-- **C6** (amended): the analyze-text operation rejects, before the
analysis core is invoked, every input whose stripped form is empty or
longer than 50,000 characters; in particular a 50,001-character input with
no surrounding whitespace is rejected at the boundary. -/
theorem analyze_rejects_oversized_stripped (text : List Char)
    (h : (pyStrip text).isEmpty ∨ 50000 < (pyStrip text).length) :
    ∃ e, analyze_text_api text = Except.error e := by
  unfold analyze_text_api
  by_cases h1 : (pyStrip text).isEmpty
  · rw [if_pos h1]
    exact ⟨_, rfl⟩
  · rcases h with h | h
    · exact absurd h h1
    · rw [if_neg h1, if_pos h]
      exact ⟨_, rfl⟩

/-- Witness for the amended C6 at the 50,001-character input `'a' * 50001`. -/
theorem analyze_rejects_oversized_stripped_witness :
    ((pyStrip (List.replicate 50001 'a')).isEmpty ∨
      50000 < (pyStrip (List.replicate 50001 'a')).length) ∧
    ∃ e, analyze_text_api (List.replicate 50001 'a') = Except.error e := by
  have hc : 50000 < (pyStrip (List.replicate 50001 'a')).length := by
    rw [wcStripRepl, List.length_replicate]
    norm_num
  exact ⟨Or.inr hc, analyze_rejects_oversized_stripped _ (Or.inr hc)⟩

/-- **C7**: every successful process-file call returns as preview exactly
the first 10,000 characters of the extracted text, the stats of the full
untruncated extracted text, and the original filename; success moreover
requires that extraction succeeded. -/
theorem process_file_success_shape (name : List Char) (size : ℕ)
    (extracted : Except String (List Char)) (r : FileResult)
    (h : process_file_api name size extracted = Except.ok r) :
    ∃ text, extracted = Except.ok text ∧
      r.text = text.take 10000 ∧
      r.stats = TextAnalyzer.get_stats text ∧
      r.filename = name := by
  unfold process_file_api at h
  by_cases h1 : 5 * 1024 * 1024 < size
  · rw [if_pos h1] at h
    exact absurd h (by simp)
  · rw [if_neg h1] at h
    by_cases h2 : extOf name = "txt".data ∨ extOf name = "docx".data ∨
        extOf name = "pdf".data
    · rw [if_pos h2] at h
      cases extracted with
      | error e => exact absurd h (by simp)
      | ok text =>
        dsimp only at h
        by_cases h3 : (pyStrip text).isEmpty
        · rw [if_pos h3] at h
          exact absurd h (by simp)
        · rw [if_neg h3] at h
          have hr : FileResult.mk (text.take 10000)
              (TextAnalyzer.get_stats text) name = r := by
            injection h
          refine ⟨text, rfl, ?_, ?_, ?_⟩ <;> rw [← hr]
    · rw [if_neg h2] at h
      exact absurd h (by simp)

/-- Witness for C7: a successful call for the file `a.txt` of size 0 whose
extractor returned `"hello"`. -/
theorem process_file_success_shape_witness :
    ∃ text, (Except.ok ("hello".data) : Except String (List Char)) = Except.ok text ∧
      (FileResult.mk (("hello".data).take 10000)
        (TextAnalyzer.get_stats ("hello".data)) ("a.txt".data)).text = text.take 10000 ∧
      (FileResult.mk (("hello".data).take 10000)
        (TextAnalyzer.get_stats ("hello".data)) ("a.txt".data)).stats
          = TextAnalyzer.get_stats text ∧
      (FileResult.mk (("hello".data).take 10000)
        (TextAnalyzer.get_stats ("hello".data)) ("a.txt".data)).filename = "a.txt".data :=
  process_file_success_shape ("a.txt".data) 0 (Except.ok ("hello".data)) _ (by rfl)

theorem wcDropWhileAllWs (p : Char → Bool) :
    ∀ l : List Char, (∀ c ∈ l, p c = true) → l.dropWhile p = [] := by
  intro l
  induction l with
  | nil => intro _; rfl
  | cons c cs ih =>
    intro h
    rw [List.dropWhile_cons, if_pos (h c (List.mem_cons_self c cs))]
    exact ih (fun d hd => h d (List.mem_cons_of_mem c hd))

theorem wcStripAllWs (t : List Char) (h : ∀ c ∈ t, pyWs c = true) :
    pyStrip t = [] := by
  unfold pyStrip
  rw [wcDropWhileAllWs pyWs t h]
  rfl

theorem wcPyWsCases (c : Char) (h : pyWs c = true) :
    c = ' ' ∨ c = '\t' ∨ c = '\n' ∨ c = '\r' ∨ c = '\x0b' ∨ c = '\x0c' := by
  simp only [pyWs, Bool.or_eq_true, decide_eq_true_eq] at h
  tauto

theorem wcLowerWs (c : Char) (h : pyWs c = true) : pyLowerChar c = c := by
  rcases wcPyWsCases c h with rfl | rfl | rfl | rfl | rfl | rfl <;> rfl

theorem wcWsNotWord (c : Char) (h : pyWs c = true) : isWordChar c = false := by
  rcases wcPyWsCases c h with rfl | rfl | rfl | rfl | rfl | rfl <;> rfl

theorem wcWordRunsNil :
    ∀ l : List Char, (∀ c ∈ l, isWordChar c = false) → wordRuns l = [] := by
  intro l
  induction l with
  | nil => intro _; rw [wordRuns]
  | cons c cs ih =>
    intro h
    rw [wordRuns]
    rw [if_neg (by rw [h c (List.mem_cons_self c cs)]; simp)]
    exact ih (fun d hd => h d (List.mem_cons_of_mem c hd))

theorem wcSplitRunsNeNil (p : Char → Bool) (l : List Char) :
    splitRuns p l ≠ [] := by
  match l with
  | [] => rw [splitRuns]; simp
  | c :: cs =>
    rw [splitRuns]
    by_cases hp : p c <;> simp [hp]

theorem wcMemOfDropWhile (p : Char → Bool) (l : List Char) (c : Char)
    (h : c ∈ l.dropWhile p) : c ∈ l := by
  have hl := wcTakeDropAppend p l
  rw [← hl]
  exact List.mem_append_right _ h

theorem wcMapIdOn (f : Char → Char) :
    ∀ l : List Char, (∀ c ∈ l, f c = c) → l.map f = l := by
  intro l
  induction l with
  | nil => intro _; rfl
  | cons c cs ih =>
    intro h
    rw [List.map_cons, h c (List.mem_cons_self c cs),
      ih (fun d hd => h d (List.mem_cons_of_mem c hd))]

theorem wcSplitRunsMem (p : Char → Bool) :
    ∀ n : ℕ, ∀ l : List Char, l.length ≤ n →
      ∀ s ∈ splitRuns p l, ∀ c ∈ s, c ∈ l := by
  intro n
  induction n with
  | zero =>
    intro l hl s hs c hc
    have : l = [] := List.length_eq_zero.mp (Nat.le_zero.mp hl)
    subst this
    rw [splitRuns] at hs
    rcases List.mem_singleton.mp hs with rfl
    simp at hc
  | succ n ih =>
    intro l hl s hs c hc
    match l with
    | [] =>
      rw [splitRuns] at hs
      rcases List.mem_singleton.mp hs with rfl
      simp at hc
    | d :: cs =>
      rw [splitRuns] at hs
      by_cases hp : p d
      · rw [if_pos hp] at hs
        rcases List.mem_cons.mp hs with rfl | hs2
        · simp at hc
        · have hlen : (cs.dropWhile p).length ≤ n := by
            have := wcDropWhileLengthLe p cs
            simp only [List.length_cons] at hl
            omega
          exact List.mem_cons_of_mem d
            (wcMemOfDropWhile p cs c (ih _ hlen s hs2 c hc))
      · rw [if_neg hp] at hs
        have hlen : cs.length ≤ n := by
          simp only [List.length_cons] at hl
          omega
        obtain ⟨s0, rest, hr⟩ : ∃ s0 rest, splitRuns p cs = s0 :: rest := by
          cases hsr : splitRuns p cs with
          | nil => exact absurd hsr (wcSplitRunsNeNil p cs)
          | cons s0 rest => exact ⟨s0, rest, rfl⟩
        rw [hr] at hs
        simp only [List.headD_cons, List.tail_cons] at hs
        rcases List.mem_cons.mp hs with rfl | hs2
        · rcases List.mem_cons.mp hc with rfl | hc2
          · exact List.mem_cons_self c cs
          · exact List.mem_cons_of_mem d
              (ih _ hlen s0 (hr ▸ List.mem_cons_self s0 rest) c hc2)
        · exact List.mem_cons_of_mem d
            (ih _ hlen s (hr ▸ List.mem_cons_of_mem s0 hs2) c hc)

theorem wcTimeZero :
    TextAnalyzer.calculate_reading_time 0 = TimeParts.mk 0 0 ∧
    TextAnalyzer.calculate_speaking_time 0 = TimeParts.mk 0 0 := by
  constructor <;>
    simp [TextAnalyzer.calculate_reading_time, TextAnalyzer.calculate_speaking_time]

/-- **C3**: an input that is empty or all whitespace has empty `words`,
`sentences` and `paragraphs` views, and its stats have zero word, sentence
and paragraph counts, an empty keyword-density list, and zero reading and
speaking times. -/
theorem whitespace_only_input_degenerate (t : List Char)
    (h : ∀ c ∈ t, pyWs c = true) :
    TextAnalyzer.words t = [] ∧
    TextAnalyzer.sentences t = [] ∧
    TextAnalyzer.paragraphs t = [] ∧
    (TextAnalyzer.get_stats t).word_count = 0 ∧
    (TextAnalyzer.get_stats t).sentence_count = 0 ∧
    (TextAnalyzer.get_stats t).paragraph_count = 0 ∧
    (TextAnalyzer.get_stats t).keyword_density = [] ∧
    (TextAnalyzer.get_stats t).reading_time = TimeParts.mk 0 0 ∧
    (TextAnalyzer.get_stats t).speaking_time = TimeParts.mk 0 0 := by
  have hw : TextAnalyzer.words t = [] := by
    unfold TextAnalyzer.words
    rw [wcMapIdOn pyLowerChar t (fun c hc => wcLowerWs c (h c hc))]
    exact wcWordRunsNil t (fun c hc => wcWsNotWord c (h c hc))
  have hsent : TextAnalyzer.sentences t = [] := by
    unfold TextAnalyzer.sentences
    rw [List.filter_eq_nil_iff]
    intro x hx
    obtain ⟨s, hs, rfl⟩ := List.mem_map.mp hx
    rw [wcStripAllWs s (fun c hc =>
      h c (wcSplitRunsMem isSentEnd t.length t (le_refl _) s hs c hc))]
    decide
  have hpar : TextAnalyzer.paragraphs t = [] := by
    unfold TextAnalyzer.paragraphs
    rw [wcStripAllWs t h, paraSplit]
    rfl
  refine ⟨hw, hsent, hpar, ?_, ?_, ?_, ?_, ?_, ?_⟩
  · show (TextAnalyzer.words t).length = 0
    rw [hw]
    rfl
  · show (TextAnalyzer.sentences t).length = 0
    rw [hsent]
    rfl
  · show (TextAnalyzer.paragraphs t).length = 0
    rw [hpar]
    rfl
  · show TextAnalyzer.get_keyword_density (TextAnalyzer.words t) = []
    rw [hw]
    rfl
  · show TextAnalyzer.calculate_reading_time (TextAnalyzer.words t).length = _
    rw [hw]
    exact wcTimeZero.1
  · show TextAnalyzer.calculate_speaking_time (TextAnalyzer.words t).length = _
    rw [hw]
    exact wcTimeZero.2

/-- Witness for C3 at the whitespace-only input `" \n\t "`. -/
theorem whitespace_only_input_degenerate_witness :
    (∀ c ∈ (" \n\t ".data), pyWs c = true) ∧
    TextAnalyzer.words (" \n\t ".data) = [] ∧
    TextAnalyzer.sentences (" \n\t ".data) = [] ∧
    TextAnalyzer.paragraphs (" \n\t ".data) = [] := by
  have h : ∀ c ∈ (" \n\t ".data), pyWs c = true := by decide
  have hr := whitespace_only_input_degenerate (" \n\t ".data) h
  exact ⟨h, hr.1, hr.2.1, hr.2.2.1⟩

theorem wcFilterOrderedInsert (k : List Char → ℕ) (c : ℕ) (w : List Char) :
    ∀ l : List (List Char),
      (List.orderedInsert (fun a b => k b ≤ k a) w l).filter (fun v => k v == c)
        = if k w == c then w :: l.filter (fun v => k v == c)
          else l.filter (fun v => k v == c) := by
  intro l
  induction l with
  | nil =>
    rw [List.orderedInsert, List.filter_cons]
  | cons b t ih =>
    rw [List.orderedInsert]
    by_cases hr : k b ≤ k w
    · rw [if_pos hr, List.filter_cons, List.filter_cons]
    · rw [if_neg hr, List.filter_cons, ih, List.filter_cons]
      by_cases hb : (k b == c) = true
      · by_cases hw : (k w == c) = true
        · exfalso
          have hb2 : k b = c := by simpa using hb
          have hw2 : k w = c := by simpa using hw
          omega
        · rw [if_pos hb, if_neg hw, if_neg hw, if_pos hb]
      · rw [if_neg hb]
        by_cases hw : (k w == c) = true
        · rw [if_pos hw, if_pos hw, if_neg hb]
        · rw [if_neg hw, if_neg hw, if_neg hb]

theorem wcFilterInsertionSort (k : List Char → ℕ) (c : ℕ) :
    ∀ l : List (List Char),
      (List.insertionSort (fun a b => k b ≤ k a) l).filter (fun v => k v == c)
        = l.filter (fun v => k v == c) := by
  intro l
  induction l with
  | nil => rfl
  | cons w t ih =>
    rw [List.insertionSort, wcFilterOrderedInsert, ih, List.filter_cons]

theorem wcMostCommonSorted (l : List (List Char)) :
    List.Pairwise (fun a b => l.count b ≤ l.count a) (mostCommon l) := by
  haveI : IsTotal (List Char) (fun a b => l.count b ≤ l.count a) :=
    ⟨fun a b => Nat.le_total (l.count b) (l.count a)⟩
  haveI : IsTrans (List Char) (fun a b => l.count b ≤ l.count a) :=
    ⟨fun _ _ _ hab hbc => Nat.le_trans hbc hab⟩
  exact List.sorted_insertionSort (fun a b => l.count b ≤ l.count a) (firstUniques l)

/-- **C1**: the keyword-density result is built from the lowercased word
list by keeping only words of length at least 3 not in the stopword set; it
is empty when nothing survives the filter, otherwise it has at most 10
entries sorted by descending count with ties kept in first-encountered
order (stated as: filtering the sorted distinct-word list to any fixed
count gives back the first-occurrence order), each entry counting its
word's frequency among the filtered words, with
`density = (count / total_filtered_words) * 100` rounded to 2 decimal
places. -/
theorem keyword_density_correct (text : List Char) :
    (keywordFiltered (TextAnalyzer.words text) = [] →
      TextAnalyzer.get_keyword_density (TextAnalyzer.words text) = []) ∧
    (TextAnalyzer.get_keyword_density (TextAnalyzer.words text)).length ≤ 10 ∧
    List.Pairwise (fun a b => b.count ≤ a.count)
      (TextAnalyzer.get_keyword_density (TextAnalyzer.words text)) ∧
    (∀ e ∈ TextAnalyzer.get_keyword_density (TextAnalyzer.words text),
      e.count = (keywordFiltered (TextAnalyzer.words text)).count e.word ∧
      e.density = round2 (((e.count : ℚ) /
        ((keywordFiltered (TextAnalyzer.words text)).length : ℚ)) * 100)) ∧
    (∀ cnt : ℕ,
      (mostCommon (keywordFiltered (TextAnalyzer.words text))).filter
          (fun w => (keywordFiltered (TextAnalyzer.words text)).count w == cnt)
        = (firstUniques (keywordFiltered (TextAnalyzer.words text))).filter
          (fun w => (keywordFiltered (TextAnalyzer.words text)).count w == cnt)) := by
  set ws := TextAnalyzer.words text with hws
  set F := keywordFiltered ws with hF
  refine ⟨?_, ?_, ?_, ?_, ?_⟩
  · intro hFe
    unfold TextAnalyzer.get_keyword_density
    by_cases hw : ws.isEmpty
    · rw [if_pos hw]
    · rw [if_neg hw, ← hF, if_pos (by rw [hFe]; rfl)]
  · unfold TextAnalyzer.get_keyword_density
    by_cases hw : ws.isEmpty
    · rw [if_pos hw]
      exact Nat.zero_le 10
    · rw [if_neg hw, ← hF]
      by_cases hFe : F.isEmpty
      · rw [if_pos hFe]
        exact Nat.zero_le 10
      · rw [if_neg hFe]
        simp only [List.length_map, List.length_take]
        exact Nat.min_le_left 10 _
  · unfold TextAnalyzer.get_keyword_density
    by_cases hw : ws.isEmpty
    · rw [if_pos hw]
      exact List.Pairwise.nil
    · rw [if_neg hw, ← hF]
      by_cases hFe : F.isEmpty
      · rw [if_pos hFe]
        exact List.Pairwise.nil
      · rw [if_neg hFe]
        rw [List.pairwise_map]
        exact ((wcMostCommonSorted F).sublist (List.take_sublist 10 _))
  · intro e he
    unfold TextAnalyzer.get_keyword_density at he
    by_cases hw : ws.isEmpty
    · rw [if_pos hw] at he
      exact absurd he (List.not_mem_nil e)
    · rw [if_neg hw, ← hF] at he
      by_cases hFe : F.isEmpty
      · rw [if_pos hFe] at he
        exact absurd he (List.not_mem_nil e)
      · rw [if_neg hFe] at he
        obtain ⟨w, _, rfl⟩ := List.mem_map.mp he
        exact ⟨rfl, rfl⟩
  · intro cnt
    exact wcFilterInsertionSort (fun v => F.count v) cnt (firstUniques F)

theorem wcKdExample :
    TextAnalyzer.get_keyword_density (TextAnalyzer.words ("dog dog cat".data))
      = [KeywordEntry.mk ("dog".data) 2 (round2 ((2 : ℚ) / 3 * 100)),
         KeywordEntry.mk ("cat".data) 1 (round2 ((1 : ℚ) / 3 * 100))] := by
  simp +decide [TextAnalyzer.get_keyword_density, TextAnalyzer.words, keywordFiltered,
    mostCommon, firstUniques, wordRuns, isWordChar, pyLowerChar,
    List.insertionSort, List.orderedInsert, TextAnalyzer.STOPWORDS]

/-- Witness for C1: the `dog` entry of the keyword density of
`"dog dog cat"` has the count and exact rounded density the claim
requires. -/
theorem keyword_density_correct_witness :
    (KeywordEntry.mk ("dog".data) 2 (round2 ((2 : ℚ) / 3 * 100))).count
        = (keywordFiltered (TextAnalyzer.words ("dog dog cat".data))).count
            (KeywordEntry.mk ("dog".data) 2 (round2 ((2 : ℚ) / 3 * 100))).word ∧
    (KeywordEntry.mk ("dog".data) 2 (round2 ((2 : ℚ) / 3 * 100))).density
        = round2 ((((KeywordEntry.mk ("dog".data) 2
              (round2 ((2 : ℚ) / 3 * 100))).count : ℚ) /
            ((keywordFiltered (TextAnalyzer.words ("dog dog cat".data))).length : ℚ))
          * 100) :=
  (keyword_density_correct ("dog dog cat".data)).2.2.2.1
    (KeywordEntry.mk ("dog".data) 2 (round2 ((2 : ℚ) / 3 * 100)))
    (by rw [wcKdExample]; exact List.mem_cons_self _ _)

/-! ### Lemmas for the idempotence of `remove_extra_spaces` -/

theorem wcDropWhileHeadNot (p : Char → Bool) :
    ∀ (l : List Char) (b : Char) (t : List Char),
      l.dropWhile p = b :: t → p b = false := by
  intro l
  induction l with
  | nil => intro b t h; exact absurd h (by simp)
  | cons c cs ih =>
    intro b t h
    rw [List.dropWhile_cons] at h
    by_cases hp : p c
    · rw [if_pos hp] at h
      exact ih b t h
    · rw [if_neg hp] at h
      cases h
      simpa using hp

theorem wcDropWhileNilAll (p : Char → Bool) :
    ∀ l : List Char, l.dropWhile p = [] → ∀ x ∈ l, p x = true := by
  intro l
  induction l with
  | nil => intro _ x hx; simp at hx
  | cons c cs ih =>
    intro h x hx
    rw [List.dropWhile_cons] at h
    by_cases hp : p c
    · rw [if_pos hp] at h
      rcases List.mem_cons.mp hx with rfl | hx2
      · exact hp
      · exact ih h x hx2
    · rw [if_neg hp] at h
      exact absurd h (by simp)

theorem wcMemTakeWhileMem (p : Char → Bool) :
    ∀ (l : List Char) (x : Char), x ∈ l.takeWhile p → p x = true ∧ x ∈ l := by
  intro l
  induction l with
  | nil => intro x hx; simp at hx
  | cons c cs ih =>
    intro x hx
    rw [List.takeWhile_cons] at hx
    by_cases hp : p c
    · rw [if_pos hp] at hx
      rcases List.mem_cons.mp hx with rfl | hx2
      · exact ⟨hp, List.mem_cons_self x cs⟩
      · obtain ⟨h1, h2⟩ := ih x hx2
        exact ⟨h1, List.mem_cons_of_mem c h2⟩
    · rw [if_neg hp] at hx
      simp at hx

theorem wcGetLastAppend :
    ∀ l₁ l₂ : List Char, l₂ ≠ [] → (l₁ ++ l₂).getLast? = l₂.getLast? := by
  intro l₁
  induction l₁ with
  | nil => intro l₂ _; rfl
  | cons a u ih =>
    intro l₂ h2
    rw [List.cons_append]
    cases hu : u ++ l₂ with
    | nil =>
      rcases List.append_eq_nil.mp hu with ⟨-, rfl⟩
      exact absurd rfl h2
    | cons d r =>
      rw [List.getLast?_cons_cons, ← hu, ih l₂ h2]

theorem wcHeadRev (l : List Char) : l.reverse.head? = l.getLast? := by
  cases hl : l.reverse with
  | nil =>
    have : l = [] := by simpa using congrArg List.reverse hl
    subst this
    rfl
  | cons b t =>
    have : l = t.reverse ++ [b] := by
      have := congrArg List.reverse hl
      simpa using this
    subst this
    rw [wcGetLastAppend _ [b] (by simp)]
    rfl

theorem wcLastRev (l : List Char) : l.reverse.getLast? = l.head? := by
  have := wcHeadRev l.reverse
  rw [List.reverse_reverse] at this
  exact this.symm

theorem wcNoNlAfterLast (l : List Char) : '\n' ∉ afterLastNl l := by
  intro h
  rw [afterLastNl, List.mem_reverse] at h
  have := (wcMemTakeWhileMem _ _ _ h).1
  simp at this

theorem wcSuffixRevPrefix (l₁ l₂ : List Char) (h : l₁ <:+ l₂) :
    l₁.reverse <+: l₂.reverse := by
  obtain ⟨u, hu⟩ := h
  exact ⟨u.reverse, by rw [← List.reverse_append, hu]⟩

theorem wcPrefixRevSuffix (l₁ l₂ : List Char) (h : l₁ <+: l₂) :
    l₁.reverse <:+ l₂.reverse := by
  obtain ⟨u, hu⟩ := h
  exact ⟨u.reverse, by rw [← List.reverse_append, hu]⟩

theorem wcAfterLastNlSuffix (l : List Char) : afterLastNl l <:+ l := by
  have h1 : l.reverse.takeWhile (fun c => c != '\n') <+: l.reverse :=
    List.takeWhile_prefix _
  have h2 := wcPrefixRevSuffix _ _ h1
  rw [List.reverse_reverse] at h2
  exact h2

theorem wcLastNlSuffix (l : List Char) (h : '\n' ∈ l) :
    ('\n' :: afterLastNl l) <:+ l := by
  have hmem : '\n' ∈ l.reverse := List.mem_reverse.mpr h
  cases hd : l.reverse.dropWhile (fun c => c != '\n') with
  | nil =>
    exfalso
    have := wcDropWhileNilAll _ _ hd '\n' hmem
    simp at this
  | cons b t =>
    have hb : b = '\n' := by
      have := wcDropWhileHeadNot _ _ _ _ hd
      simpa using this
    subst hb
    have happ := wcTakeDropAppend (fun c => c != '\n') l.reverse
    rw [hd] at happ
    refine ⟨t.reverse, ?_⟩
    unfold afterLastNl
    conv_rhs => rw [← List.reverse_reverse l, ← happ]
    rw [List.reverse_append, List.reverse_cons]
    simp

/-- No two adjacent space-or-tab characters (the first substitution is then
a fixed point). -/
def stPairOk (a b : Char) : Prop :=
  ¬(isSpaceTab a = true ∧ isSpaceTab b = true)

/-- No whitespace character adjacent to a newline (the second and third
substitutions are then fixed points). -/
def nlPairOk (a b : Char) : Prop :=
  ¬(a = '\n' ∧ pyWs b = true) ∧ ¬(pyWs a = true ∧ b = '\n')

theorem wcNoNlInRun :
    ∀ (cs : List Char) (c : Char), pyWs c = true →
      List.Chain' nlPairOk (c :: cs) → '\n' ∉ cs.takeWhile pyWs := by
  intro cs
  induction cs with
  | nil => intro c _ _ h; simp at h
  | cons d ds ih =>
    intro c hc hch h
    rw [List.takeWhile_cons] at h
    by_cases hd : pyWs d = true
    · rw [if_pos hd] at h
      rcases List.mem_cons.mp h with rfl | h2
      · exact (List.chain'_cons.mp hch).1.2 ⟨hc, rfl⟩
      · exact ih d hd (List.chain'_cons.mp hch).2 h2
    · rw [if_neg hd] at h
      simp at h

theorem wcSub1Id :
    ∀ l : List Char, List.Chain' stPairOk l → '\t' ∉ l →
      TextCleaner.sub1 l = l := by
  intro l
  induction l with
  | nil => intro _ _; rw [TextCleaner.sub1]
  | cons c cs ih =>
    intro hch ht
    rw [TextCleaner.sub1]
    by_cases hst : isSpaceTab c = true
    · rw [if_pos hst]
      have hc : c = ' ' := by
        simp only [isSpaceTab, Bool.or_eq_true, decide_eq_true_eq] at hst
        rcases hst with h | h
        · exact h
        · exact absurd (h ▸ List.mem_cons_self c cs) ht
      have hdw : cs.dropWhile isSpaceTab = cs := by
        cases cs with
        | nil => rfl
        | cons d ds =>
          rw [List.dropWhile_cons, if_neg]
          intro hd
          exact (List.chain'_cons.mp hch).1 ⟨hst, hd⟩
      rw [hdw, hc, ih hch.tail (fun hm => ht (List.mem_cons_of_mem c hm))]
    · rw [if_neg hst, ih hch.tail (fun hm => ht (List.mem_cons_of_mem c hm))]

theorem wcSub2Id :
    ∀ l : List Char, List.Chain' nlPairOk l → TextCleaner.sub2 l = l := by
  intro l
  induction l with
  | nil => intro _; rw [TextCleaner.sub2]
  | cons c cs ih =>
    intro hch
    rw [TextCleaner.sub2, if_neg, ih hch.tail]
    rintro ⟨rfl, hcount⟩
    have htw : cs.takeWhile pyWs = [] := by
      cases cs with
      | nil => rfl
      | cons d ds =>
        rw [List.takeWhile_cons, if_neg]
        intro hd
        exact (List.chain'_cons.mp hch).1.1 ⟨rfl, hd⟩
    rw [htw] at hcount
    simp at hcount

theorem wcSub3Id :
    ∀ l : List Char, ∀ ls : Bool, List.Chain' nlPairOk l →
      (∀ x, l.getLast? = some x → pyWs x = false) →
      (ls = true → ∀ d ds, l = d :: ds → pyWs d = false) →
      TextCleaner.sub3 ls l = l := by
  intro l
  induction l with
  | nil => intro ls _ _ _; rw [TextCleaner.sub3]
  | cons c cs ih =>
    intro ls hch hlast hhead
    have hlast2 : ∀ x, cs.getLast? = some x → pyWs x = false := by
      intro x hx
      apply hlast
      cases cs with
      | nil => simp at hx
      | cons d ds => rw [List.getLast?_cons_cons]; exact hx
    have hhead2 : (c == '\n') = true → ∀ d ds, cs = d :: ds → pyWs d = false := by
      intro hbe d ds hcs
      have hc : c = '\n' := by simpa using hbe
      subst hc
      subst hcs
      cases hpd : pyWs d with
      | false => rfl
      | true => exact absurd ⟨rfl, hpd⟩ (List.chain'_cons.mp hch).1.1
    rw [TextCleaner.sub3]
    by_cases hws : pyWs c = true
    · cases ls with
      | true =>
        exact absurd hws (by rw [hhead rfl c cs rfl]; simp)
      | false =>
        rw [if_pos hws, if_neg (by simp)]
        have hrest : cs.dropWhile pyWs ≠ [] := by
          intro h0
          have hall : ∀ x ∈ c :: cs, pyWs x = true := by
            intro x hx
            rcases List.mem_cons.mp hx with rfl | hx2
            · exact hws
            · exact wcDropWhileNilAll pyWs cs h0 x hx2
          have hgl : (c :: cs).getLast? = some ((c :: cs).getLast (by simp)) :=
            List.getLast?_eq_getLast _ (by simp)
          have hn := hlast _ hgl
          rw [hall _ (List.getLast_mem (by simp))] at hn
          simp at hn
        rw [if_neg hrest, if_neg (wcNoNlInRun cs c hws hch)]
        rw [ih (c == '\n') hch.tail hlast2 hhead2]
    · rw [if_neg hws]
      rw [ih (c == '\n') hch.tail hlast2 hhead2]

theorem wcDropWhileHeadSome (p : Char → Bool) (l : List Char)
    (h : ∀ x, l.head? = some x → p x = false) : l.dropWhile p = l := by
  cases l with
  | nil => rfl
  | cons c cs =>
    rw [List.dropWhile_cons, if_neg]
    rw [h c rfl]
    simp

theorem wcStripId (l : List Char)
    (hh : ∀ x, l.head? = some x → pyWs x = false)
    (hl : ∀ x, l.getLast? = some x → pyWs x = false) : pyStrip l = l := by
  unfold pyStrip
  rw [wcDropWhileHeadSome pyWs l hh]
  rw [wcDropWhileHeadSome pyWs l.reverse (by rw [wcHeadRev]; exact hl)]
  exact List.reverse_reverse l

theorem wcSub3ConsNonWs (ls : Bool) (c : Char) (cs : List Char)
    (hws : pyWs c = false) :
    TextCleaner.sub3 ls (c :: cs) = c :: TextCleaner.sub3 (c == '\n') cs := by
  rw [TextCleaner.sub3, if_neg (by rw [hws]; simp)]

theorem wcSub3FalseConsWs (c : Char) (cs : List Char) (hws : pyWs c = true)
    (hnl : '\n' ∉ cs.takeWhile pyWs) (hrest : cs.dropWhile pyWs ≠ []) :
    TextCleaner.sub3 false (c :: cs) = c :: TextCleaner.sub3 (c == '\n') cs := by
  rw [TextCleaner.sub3, if_pos hws, if_neg (by simp), if_neg hrest, if_neg hnl]

theorem wcSub3ConsNoMatch (c : Char) (cs : List Char)
    (hnl : '\n' ∉ (c :: cs).takeWhile pyWs)
    (hrest : (c :: cs).dropWhile pyWs ≠ []) :
    TextCleaner.sub3 false (c :: cs) = c :: TextCleaner.sub3 (c == '\n') cs := by
  by_cases hws : pyWs c = true
  · rw [List.takeWhile_cons, if_pos hws] at hnl
    rw [List.dropWhile_cons, if_pos hws] at hrest
    exact wcSub3FalseConsWs c cs hws (fun h => hnl (List.mem_cons_of_mem c h)) hrest
  · exact wcSub3ConsNonWs false c cs (by simpa using hws)

theorem wcSub3HeadTrue :
    ∀ (l : List Char) (b : Char) (t : List Char),
      TextCleaner.sub3 true l = b :: t → pyWs b = false := by
  intro l b t h
  cases l with
  | nil => rw [TextCleaner.sub3] at h; exact absurd h (by simp)
  | cons c cs =>
    by_cases hws : pyWs c = true
    · rw [TextCleaner.sub3, if_pos hws, if_pos rfl] at h
      cases hrest : cs.dropWhile pyWs with
      | nil =>
        rw [hrest, TextCleaner.sub3] at h
        exact absurd h (by simp)
      | cons d ds =>
        have hd : pyWs d = false := wcDropWhileHeadNot pyWs cs d ds hrest
        rw [hrest, wcSub3ConsNonWs _ d ds hd] at h
        cases h
        exact hd
    · rw [wcSub3ConsNonWs true c cs (by simpa using hws)] at h
      cases h
      simpa using hws

theorem wcRunRest (c : Char) (cs : List Char) :
    (c :: cs.takeWhile pyWs) ++ cs.dropWhile pyWs = c :: cs := by
  rw [List.cons_append, wcTakeDropAppend]

theorem wcSuffixAppend (l₁ l₂ t : List Char) (h : l₁ <:+ l₂) :
    (l₁ ++ t) <:+ (l₂ ++ t) := by
  obtain ⟨u, hu⟩ := h
  exact ⟨u, by rw [← List.append_assoc, hu]⟩

theorem wcSub3XSuffix (c : Char) (cs : List Char)
    (hnl : '\n' ∈ cs.takeWhile pyWs) :
    ('\n' :: afterLastNl (c :: cs.takeWhile pyWs) ++ cs.dropWhile pyWs) <:+ (c :: cs) := by
  have h1 : '\n' ∈ (c :: cs.takeWhile pyWs) := List.mem_cons_of_mem c hnl
  have h2 := wcLastNlSuffix _ h1
  have h3 := wcSuffixAppend _ _ (cs.dropWhile pyWs) h2
  rw [wcRunRest] at h3
  exact h3

theorem wcSub2XSuffix (c : Char) (cs : List Char) :
    (afterLastNl (c :: cs.takeWhile pyWs) ++ cs.dropWhile pyWs) <:+ (c :: cs) := by
  have h2 := wcAfterLastNlSuffix (c :: cs.takeWhile pyWs)
  have h3 := wcSuffixAppend _ _ (cs.dropWhile pyWs) h2
  rw [wcRunRest] at h3
  exact h3

theorem wcSub3XLen (c : Char) (cs : List Char)
    (hnl : '\n' ∈ cs.takeWhile pyWs) :
    ('\n' :: afterLastNl (c :: cs.takeWhile pyWs) ++ cs.dropWhile pyWs).length
      ≤ cs.length := by
  have hrev : (c :: cs.takeWhile pyWs).reverse
      = (cs.takeWhile pyWs).reverse ++ [c] := by simp
  have hA : ((c :: cs.takeWhile pyWs).reverse.takeWhile (fun x => x != '\n'))
      = ((cs.takeWhile pyWs).reverse.takeWhile (fun x => x != '\n')) := by
    rw [hrev]
    exact wcTakeWhileAppendOfFail (fun x => x != '\n') '\n' (by simp)
      ((cs.takeWhile pyWs).reverse) [c] (by simp [hnl])
  have h1 := wcTakeWhileLtOfMem (fun x => x != '\n') ((cs.takeWhile pyWs).reverse)
    '\n' (by simp [hnl]) (by simp)
  have h2 := wcTakeDropLength pyWs cs
  simp only [afterLastNl, hA, List.length_cons, List.length_append,
    List.length_reverse] at h1 ⊢
  omega

theorem wcSub2XLen (c : Char) (cs : List Char)
    (hc : c = '\n') :
    (afterLastNl (c :: cs.takeWhile pyWs) ++ cs.dropWhile pyWs).length
      ≤ cs.length := by
  subst hc
  have h1 := wcTakeWhileLtOfMem (fun x => x != '\n')
    (('\n' :: cs.takeWhile pyWs).reverse) '\n' (by simp) (by simp)
  have h2 := wcTakeDropLength pyWs cs
  simp only [afterLastNl, List.length_append, List.length_reverse,
    List.length_cons] at h1 ⊢
  omega

theorem wcStImpWs (c : Char) (h : isSpaceTab c = true) : pyWs c = true := by
  simp only [isSpaceTab, Bool.or_eq_true, decide_eq_true_eq] at h
  rcases h with rfl | rfl <;> rfl

theorem wcSub1Tab :
    ∀ n : ℕ, ∀ l : List Char, l.length ≤ n → '\t' ∉ TextCleaner.sub1 l := by
  intro n
  induction n with
  | zero =>
    intro l hl
    have : l = [] := List.length_eq_zero.mp (Nat.le_zero.mp hl)
    subst this
    rw [TextCleaner.sub1]
    simp
  | succ n ih =>
    intro l hl
    cases l with
    | nil => rw [TextCleaner.sub1]; simp
    | cons c cs =>
      simp only [List.length_cons] at hl
      rw [TextCleaner.sub1]
      by_cases hst : isSpaceTab c = true
      · rw [if_pos hst]
        intro hmem
        rcases List.mem_cons.mp hmem with h | h
        · simp at h
        · exact ih _ (le_trans (wcDropWhileLengthLe isSpaceTab cs) (by omega)) h
      · rw [if_neg hst]
        intro hmem
        rcases List.mem_cons.mp hmem with h | h
        · rw [← h] at hst
          exact hst rfl
        · exact ih _ (by omega) h

theorem wcSub1Head (l : List Char)
    (hh : ∀ x, l.head? = some x → isSpaceTab x = false) :
    ∀ b t, TextCleaner.sub1 l = b :: t → isSpaceTab b = false := by
  intro b t h
  cases l with
  | nil => rw [TextCleaner.sub1] at h; exact absurd h (by simp)
  | cons c cs =>
    have hc := hh c rfl
    rw [TextCleaner.sub1, if_neg (by rw [hc]; simp)] at h
    cases h
    exact hc

theorem wcSub1Chain :
    ∀ n : ℕ, ∀ l : List Char, l.length ≤ n →
      List.Chain' stPairOk (TextCleaner.sub1 l) := by
  intro n
  induction n with
  | zero =>
    intro l hl
    have : l = [] := List.length_eq_zero.mp (Nat.le_zero.mp hl)
    subst this
    rw [TextCleaner.sub1]
    exact List.chain'_nil
  | succ n ih =>
    intro l hl
    cases l with
    | nil => rw [TextCleaner.sub1]; exact List.chain'_nil
    | cons c cs =>
      simp only [List.length_cons] at hl
      rw [TextCleaner.sub1]
      by_cases hst : isSpaceTab c = true
      · rw [if_pos hst]
        rw [List.chain'_cons']
        refine ⟨?_, ih _ (le_trans (wcDropWhileLengthLe isSpaceTab cs) (by omega))⟩
        intro b hb
        cases hsr : TextCleaner.sub1 (cs.dropWhile isSpaceTab) with
        | nil => rw [hsr] at hb; simp at hb
        | cons b0 t0 =>
          rw [hsr] at hb
          simp only [List.head?_cons, Option.mem_def, Option.some.injEq] at hb
          subst hb
          have hb0 : isSpaceTab b0 = false := by
            refine wcSub1Head _ ?_ b0 t0 hsr
            intro x hx
            cases hdw : cs.dropWhile isSpaceTab with
            | nil => rw [hdw] at hx; simp at hx
            | cons d ds =>
              have hd := wcDropWhileHeadNot isSpaceTab cs d ds hdw
              rw [hdw] at hx
              simp only [List.head?_cons, Option.some.injEq] at hx
              rw [hx] at hd
              exact hd
          intro hpair
          rw [hb0] at hpair
          simp at hpair
      · rw [if_neg hst]
        rw [List.chain'_cons']
        refine ⟨?_, ih _ (by omega)⟩
        intro b _ hpair
        exact hst hpair.1

theorem wcSub2Head :
    ∀ (l : List Char) (b : Char) (t : List Char), TextCleaner.sub2 l = b :: t →
      b = '\n' ∨ ∃ t2, l = b :: t2 := by
  intro l b t h
  cases l with
  | nil => rw [TextCleaner.sub2] at h; exact absurd h (by simp)
  | cons c cs =>
    rw [TextCleaner.sub2] at h
    by_cases hm : c = '\n' ∧ 3 ≤ (c :: cs.takeWhile pyWs).count '\n'
    · rw [if_pos hm] at h
      cases h
      exact Or.inl rfl
    · rw [if_neg hm] at h
      cases h
      exact Or.inr ⟨cs, rfl⟩

theorem wcSub2Tab :
    ∀ n : ℕ, ∀ l : List Char, l.length ≤ n → '\t' ∉ l →
      '\t' ∉ TextCleaner.sub2 l := by
  intro n
  induction n with
  | zero =>
    intro l hl _
    have : l = [] := List.length_eq_zero.mp (Nat.le_zero.mp hl)
    subst this
    rw [TextCleaner.sub2]
    simp
  | succ n ih =>
    intro l hl htab
    cases l with
    | nil => rw [TextCleaner.sub2]; simp
    | cons c cs =>
      simp only [List.length_cons] at hl
      rw [TextCleaner.sub2]
      by_cases hm : c = '\n' ∧ 3 ≤ (c :: cs.takeWhile pyWs).count '\n'
      · rw [if_pos hm]
        intro hmem
        rcases List.mem_cons.mp hmem with h | hmem2
        · simp at h
        · rcases List.mem_cons.mp hmem2 with h | hmem3
          · simp at h
          · refine ih _ (le_trans (wcSub2XLen c cs hm.1) (by omega)) ?_ hmem3
            intro hx
            exact htab ((wcSub2XSuffix c cs).mem hx)
      · rw [if_neg hm]
        intro hmem
        rcases List.mem_cons.mp hmem with h | hmem2
        · exact htab (h ▸ List.mem_cons_self c cs)
        · exact ih _ (by omega) (fun hx => htab (List.mem_cons_of_mem c hx)) hmem2

theorem wcSub2ChainSt :
    ∀ n : ℕ, ∀ l : List Char, l.length ≤ n → List.Chain' stPairOk l →
      List.Chain' stPairOk (TextCleaner.sub2 l) := by
  intro n
  induction n with
  | zero =>
    intro l hl _
    have : l = [] := List.length_eq_zero.mp (Nat.le_zero.mp hl)
    subst this
    rw [TextCleaner.sub2]
    exact List.chain'_nil
  | succ n ih =>
    intro l hl hch
    cases l with
    | nil => rw [TextCleaner.sub2]; exact List.chain'_nil
    | cons c cs =>
      simp only [List.length_cons] at hl
      rw [TextCleaner.sub2]
      by_cases hm : c = '\n' ∧ 3 ≤ (c :: cs.takeWhile pyWs).count '\n'
      · rw [if_pos hm]
        rw [List.chain'_cons']
        refine ⟨?_, ?_⟩
        · intro b _ hpair
          simp [isSpaceTab] at hpair
        · rw [List.chain'_cons']
          refine ⟨?_, ?_⟩
          · intro b _ hpair
            simp [isSpaceTab] at hpair
          · refine ih _ (le_trans (wcSub2XLen c cs hm.1) (by omega)) ?_
            exact hch.suffix (wcSub2XSuffix c cs)
      · rw [if_neg hm]
        rw [List.chain'_cons']
        refine ⟨?_, ih _ (by omega) hch.tail⟩
        intro b hb
        cases hsr : TextCleaner.sub2 cs with
        | nil => rw [hsr] at hb; simp at hb
        | cons b0 t0 =>
          rw [hsr] at hb
          simp only [List.head?_cons, Option.mem_def, Option.some.injEq] at hb
          subst hb
          rcases wcSub2Head cs b0 t0 hsr with rfl | ⟨t2, rfl⟩
          · intro hpair
            simp [isSpaceTab] at hpair
          · exact (List.chain'_cons.mp hch).1

theorem wcSub3FalseHead (cs : List Char) (b : Char) (t : List Char)
    (hnl : '\n' ∉ cs.takeWhile pyWs) (hrest : cs.dropWhile pyWs ≠ [])
    (h : TextCleaner.sub3 false cs = b :: t) :
    (∃ t2, cs = b :: t2) ∧ b ≠ '\n' := by
  cases cs with
  | nil => simp at hrest
  | cons d ds =>
    rw [wcSub3ConsNoMatch d ds hnl hrest] at h
    injection h with h1 h2
    subst h1
    refine ⟨⟨ds, rfl⟩, ?_⟩
    by_cases hws : pyWs d = true
    · have hmem : d ∈ (d :: ds).takeWhile pyWs := by
        rw [List.takeWhile_cons, if_pos hws]
        exact List.mem_cons_self _ _
      intro hdn
      subst hdn
      exact hnl hmem
    · intro hdn
      subst hdn
      exact hws rfl

theorem wcSub3ChainNl :
    ∀ n : ℕ, ∀ (ls : Bool) (l : List Char), l.length ≤ n →
      List.Chain' nlPairOk (TextCleaner.sub3 ls l) := by
  intro n
  induction n with
  | zero =>
    intro ls l hl
    have : l = [] := List.length_eq_zero.mp (Nat.le_zero.mp hl)
    subst this
    rw [TextCleaner.sub3]
    exact List.chain'_nil
  | succ n ih =>
    intro ls l hl
    cases l with
    | nil => rw [TextCleaner.sub3]; exact List.chain'_nil
    | cons c cs =>
      simp only [List.length_cons] at hl
      by_cases hws : pyWs c = true
      · cases ls with
        | true =>
          rw [TextCleaner.sub3, if_pos hws, if_pos rfl]
          exact ih _ _ (le_trans (wcDropWhileLengthLe pyWs cs) (by omega))
        | false =>
          rw [TextCleaner.sub3, if_pos hws, if_neg (by simp)]
          by_cases hrest : cs.dropWhile pyWs = []
          · rw [if_pos hrest]
            exact List.chain'_nil
          · rw [if_neg hrest]
            by_cases hnl : '\n' ∈ cs.takeWhile pyWs
            · rw [if_pos hnl]
              exact ih _ _ (le_trans (wcSub3XLen c cs hnl) (by omega))
            · rw [if_neg hnl]
              rw [List.chain'_cons']
              refine ⟨?_, ih _ _ (by omega)⟩
              intro b hb
              cases hsr : TextCleaner.sub3 (c == '\n') cs with
              | nil => rw [hsr] at hb; simp at hb
              | cons b0 t0 =>
                rw [hsr] at hb
                simp only [List.head?_cons, Option.mem_def, Option.some.injEq] at hb
                subst hb
                by_cases hc : c = '\n'
                · subst hc
                  rw [show (('\n' : Char) == '\n') = true from rfl] at hsr
                  have hb0 := wcSub3HeadTrue cs b0 t0 hsr
                  constructor
                  · rintro ⟨-, hwb⟩
                    rw [hb0] at hwb
                    simp at hwb
                  · rintro ⟨-, hbn⟩
                    rw [hbn] at hb0
                    exact absurd hb0 (by decide)
                · rw [show (c == '\n') = false from by simp [hc]] at hsr
                  obtain ⟨-, hbn⟩ := wcSub3FalseHead cs b0 t0 hnl hrest hsr
                  constructor
                  · rintro ⟨hcn, -⟩
                    exact hc hcn
                  · rintro ⟨-, hbn2⟩
                    exact hbn hbn2
      · rw [wcSub3ConsNonWs ls c cs (by simpa using hws)]
        rw [List.chain'_cons']
        refine ⟨?_, ih _ _ (by omega)⟩
        intro b _
        constructor
        · rintro ⟨rfl, -⟩
          exact hws rfl
        · rintro ⟨hwc, -⟩
          exact hws hwc

theorem wcSub3ChainSt :
    ∀ n : ℕ, ∀ (ls : Bool) (l : List Char), l.length ≤ n →
      List.Chain' stPairOk l →
      List.Chain' stPairOk (TextCleaner.sub3 ls l) := by
  intro n
  induction n with
  | zero =>
    intro ls l hl _
    have : l = [] := List.length_eq_zero.mp (Nat.le_zero.mp hl)
    subst this
    rw [TextCleaner.sub3]
    exact List.chain'_nil
  | succ n ih =>
    intro ls l hl hch
    cases l with
    | nil => rw [TextCleaner.sub3]; exact List.chain'_nil
    | cons c cs =>
      simp only [List.length_cons] at hl
      by_cases hws : pyWs c = true
      · cases ls with
        | true =>
          rw [TextCleaner.sub3, if_pos hws, if_pos rfl]
          exact ih _ _ (le_trans (wcDropWhileLengthLe pyWs cs) (by omega))
            (hch.suffix ⟨c :: cs.takeWhile pyWs, wcRunRest c cs⟩)
        | false =>
          rw [TextCleaner.sub3, if_pos hws, if_neg (by simp)]
          by_cases hrest : cs.dropWhile pyWs = []
          · rw [if_pos hrest]
            exact List.chain'_nil
          · rw [if_neg hrest]
            by_cases hnl : '\n' ∈ cs.takeWhile pyWs
            · rw [if_pos hnl]
              exact ih _ _ (le_trans (wcSub3XLen c cs hnl) (by omega))
                (hch.suffix (wcSub3XSuffix c cs hnl))
            · rw [if_neg hnl]
              rw [List.chain'_cons']
              refine ⟨?_, ih _ _ (by omega) hch.tail⟩
              intro b hb
              by_cases hstc : isSpaceTab c = true
              · cases hsr : TextCleaner.sub3 (c == '\n') cs with
                | nil => rw [hsr] at hb; simp at hb
                | cons b0 t0 =>
                  rw [hsr] at hb
                  simp only [List.head?_cons, Option.mem_def, Option.some.injEq] at hb
                  subst hb
                  have hcne : c ≠ '\n' := by
                    intro h0
                    rw [h0] at hstc
                    simp [isSpaceTab] at hstc
                  rw [show (c == '\n') = false from by simp [hcne]] at hsr
                  obtain ⟨⟨t2, ht2⟩, -⟩ := wcSub3FalseHead cs b0 t0 hnl hrest hsr
                  rw [ht2] at hch
                  exact (List.chain'_cons.mp hch).1
              · intro hpair
                exact hstc hpair.1
      · rw [wcSub3ConsNonWs ls c cs (by simpa using hws)]
        rw [List.chain'_cons']
        refine ⟨?_, ih _ _ (by omega) hch.tail⟩
        intro b _ hpair
        exact hws (wcStImpWs c hpair.1)

theorem wcSub3Subset :
    ∀ n : ℕ, ∀ (ls : Bool) (l : List Char), l.length ≤ n →
      ∀ x ∈ TextCleaner.sub3 ls l, x ∈ l := by
  intro n
  induction n with
  | zero =>
    intro ls l hl x hx
    have : l = [] := List.length_eq_zero.mp (Nat.le_zero.mp hl)
    subst this
    rw [TextCleaner.sub3] at hx
    simp at hx
  | succ n ih =>
    intro ls l hl x hx
    cases l with
    | nil => rw [TextCleaner.sub3] at hx; simp at hx
    | cons c cs =>
      simp only [List.length_cons] at hl
      by_cases hws : pyWs c = true
      · cases ls with
        | true =>
          rw [TextCleaner.sub3, if_pos hws, if_pos rfl] at hx
          have hx2 := ih _ _ (le_trans (wcDropWhileLengthLe pyWs cs) (by omega)) x hx
          exact List.mem_cons_of_mem c (wcMemOfDropWhile pyWs cs x hx2)
        | false =>
          rw [TextCleaner.sub3, if_pos hws, if_neg (by simp)] at hx
          by_cases hrest : cs.dropWhile pyWs = []
          · rw [if_pos hrest] at hx
            simp at hx
          · rw [if_neg hrest] at hx
            by_cases hnl : '\n' ∈ cs.takeWhile pyWs
            · rw [if_pos hnl] at hx
              have hx2 := ih _ _ (le_trans (wcSub3XLen c cs hnl) (by omega)) x hx
              exact (wcSub3XSuffix c cs hnl).mem hx2
            · rw [if_neg hnl] at hx
              rcases List.mem_cons.mp hx with rfl | hx2
              · exact List.mem_cons_self x cs
              · exact List.mem_cons_of_mem c (ih _ _ (by omega) x hx2)
      · rw [wcSub3ConsNonWs ls c cs (by simpa using hws)] at hx
        rcases List.mem_cons.mp hx with rfl | hx2
        · exact List.mem_cons_self x cs
        · exact List.mem_cons_of_mem c (ih _ _ (by omega) x hx2)

theorem wcStripChain (R : Char → Char → Prop) (l : List Char)
    (h : List.Chain' R l) : List.Chain' R (pyStrip l) := by
  have h1 : l.dropWhile pyWs <:+ l := ⟨l.takeWhile pyWs, wcTakeDropAppend pyWs l⟩
  have h2 : (l.dropWhile pyWs).reverse.dropWhile pyWs <:+ (l.dropWhile pyWs).reverse :=
    ⟨_, wcTakeDropAppend pyWs _⟩
  have h3 := wcSuffixRevPrefix _ _ h2
  rw [List.reverse_reverse] at h3
  exact List.Chain'.prefix (h.suffix h1) h3

theorem wcStripInfix (l : List Char) : pyStrip l <:+: l := by
  unfold pyStrip
  have h1 : l.dropWhile pyWs <:+ l := ⟨l.takeWhile pyWs, wcTakeDropAppend pyWs l⟩
  have h2 : (l.dropWhile pyWs).reverse.dropWhile pyWs <:+ (l.dropWhile pyWs).reverse :=
    ⟨_, wcTakeDropAppend pyWs _⟩
  have h3 := wcSuffixRevPrefix _ _ h2
  rw [List.reverse_reverse] at h3
  exact h3.isInfix.trans h1.isInfix

theorem wcStripHeadNonWs (l : List Char) :
    ∀ x, (pyStrip l).head? = some x → pyWs x = false := by
  intro x hx
  unfold pyStrip at hx
  rw [wcHeadRev] at hx
  obtain ⟨u, hu⟩ : (l.dropWhile pyWs).reverse.dropWhile pyWs
      <:+ (l.dropWhile pyWs).reverse := ⟨_, wcTakeDropAppend pyWs _⟩
  cases hd : (l.dropWhile pyWs).reverse.dropWhile pyWs with
  | nil => rw [hd] at hx; simp at hx
  | cons b t =>
    have hgl : (l.dropWhile pyWs).reverse.getLast? = some x := by
      rw [← hu, wcGetLastAppend u _ (by rw [hd]; simp)]
      exact hx
    rw [wcLastRev] at hgl
    cases hdd : l.dropWhile pyWs with
    | nil => rw [hdd] at hgl; simp at hgl
    | cons e es =>
      have he := wcDropWhileHeadNot pyWs l e es hdd
      rw [hdd] at hgl
      simp only [List.head?_cons, Option.some.injEq] at hgl
      rw [← hgl]
      exact he

theorem wcStripLastNonWs (l : List Char) :
    ∀ x, (pyStrip l).getLast? = some x → pyWs x = false := by
  intro x hx
  unfold pyStrip at hx
  rw [wcLastRev] at hx
  cases hd : (l.dropWhile pyWs).reverse.dropWhile pyWs with
  | nil => rw [hd] at hx; simp at hx
  | cons b t =>
    have hb := wcDropWhileHeadNot pyWs _ b t hd
    rw [hd] at hx
    simp only [List.head?_cons, Option.some.injEq] at hx
    rw [← hx]
    exact hb

/-- **C4**: `remove_extra_spaces` is idempotent:
`remove_extra_spaces (remove_extra_spaces s) = remove_extra_spaces s` for
every string `s`.  The output never contains a tab, never contains two
adjacent spaces, and never has a whitespace character adjacent to a
newline or at either end, and any string with those properties is a fixed
point of all three substitutions and of the final strip. -/
theorem remove_extra_spaces_idempotent (s : List Char) :
    TextCleaner.remove_extra_spaces (TextCleaner.remove_extra_spaces s)
      = TextCleaner.remove_extra_spaces s := by
  have hr : TextCleaner.remove_extra_spaces s
      = pyStrip (TextCleaner.sub3 true (TextCleaner.sub2 (TextCleaner.sub1 s))) := rfl
  have hchainNl : List.Chain' nlPairOk (TextCleaner.remove_extra_spaces s) := by
    rw [hr]
    exact wcStripChain nlPairOk _ (wcSub3ChainNl _ true _ (le_refl _))
  have hchainSt : List.Chain' stPairOk (TextCleaner.remove_extra_spaces s) := by
    rw [hr]
    refine wcStripChain stPairOk _ ?_
    refine wcSub3ChainSt _ true _ (le_refl _) ?_
    refine wcSub2ChainSt _ _ (le_refl _) ?_
    exact wcSub1Chain _ _ (le_refl _)
  have htab : '\t' ∉ TextCleaner.remove_extra_spaces s := by
    rw [hr]
    intro hmem
    have h1 := (wcStripInfix _).sublist.subset hmem
    have h2 := wcSub3Subset _ true _ (le_refl _) _ h1
    refine wcSub2Tab _ _ (le_refl _) ?_ h2
    exact wcSub1Tab _ _ (le_refl _)
  have hhead : ∀ x, (TextCleaner.remove_extra_spaces s).head? = some x →
      pyWs x = false := by
    rw [hr]
    exact wcStripHeadNonWs _
  have hlast : ∀ x, (TextCleaner.remove_extra_spaces s).getLast? = some x →
      pyWs x = false := by
    rw [hr]
    exact wcStripLastNonWs _
  rw [show TextCleaner.remove_extra_spaces (TextCleaner.remove_extra_spaces s)
      = pyStrip (TextCleaner.sub3 true (TextCleaner.sub2
        (TextCleaner.sub1 (TextCleaner.remove_extra_spaces s)))) from rfl]
  rw [wcSub1Id _ hchainSt htab]
  rw [wcSub2Id _ hchainNl]
  rw [wcSub3Id _ true hchainNl hlast
    (fun _ d ds hdds => hhead d (by rw [hdds]; rfl))]
  exact wcStripId _ hhead hlast

